import Mathlib

/-!
# TLRUCache (lib/lru.h)

Shallow embedding of the cache of `lib/lru.h` (release build, `DEBUG` undefined).

* `std::list<TNode>` is a list of nodes, each paired with its address; a list iterator
  (`TNodeRef`) is the address of a node, so it stays valid while other nodes move.
* `std::map<TKey, iterator>` is an association list with unique keys.
* An operation whose C++ behaviour is undefined (dereferencing an iterator that points to no
  node, `front()` of an empty list) returns `none`.
-/

namespace LRU

/-- Node of the list, `TLRUCache::TNode`. -/
structure TNode (TKey TValue : Type) where
  Key : TKey
  Value : TValue
deriving DecidableEq, Repr

/-- Iterator of `std::list<TNode>`: the address of a node. -/
abbrev TNodeRef := Nat

/-- State of `TLRUCache<TKey, TValue, Capacity>`: the members `Map` and `List`. -/
structure TLRUCache (TKey TValue : Type) (Capacity : Nat) where
  Map : List (TKey × TNodeRef)
  List : List (TNodeRef × TNode TKey TValue)
deriving DecidableEq, Repr

section Containers

variable {TKey TValue : Type} [DecidableEq TKey]

/-- Lookup `Map.find(key)`: `none` is `Map.end()`, `some it` gives `it->second`. -/
def mapFind (m : List (TKey × TNodeRef)) (key : TKey) : Option TNodeRef :=
  (m.find? (fun e => decide (e.1 = key))).map (fun e => e.2)

/-- Removal `Map.erase(key)`. -/
def mapErase (m : List (TKey × TNodeRef)) (key : TKey) : List (TKey × TNodeRef) :=
  m.filter (fun e => decide (e.1 ≠ key))

/-- Assignment `Map[key] = it`: overwrite the mapped iterator, or insert a new pair. -/
def mapAssign (m : List (TKey × TNodeRef)) (key : TKey) (it : TNodeRef) :
    List (TKey × TNodeRef) :=
  if (mapFind m key).isSome then
    m.map (fun e => if e.1 = key then (e.1, it) else e)
  else
    m ++ [(key, it)]

/-- Node an iterator points to, if it points to a node of the list. -/
def deref (l : List (TNodeRef × TNode TKey TValue)) (it : TNodeRef) :
    Option (TNode TKey TValue) :=
  (l.find? (fun n => decide (n.1 = it))).map (fun n => n.2)

/-- Iterator `List.begin()`; `none` is `List.end()` (empty list). -/
def listBegin (l : List (TNodeRef × TNode TKey TValue)) : Option TNodeRef :=
  l.head?.map (fun n => n.1)

/-- Store `it->Value = value`; undefined when `it` points to no node. -/
def setValue (l : List (TNodeRef × TNode TKey TValue)) (it : TNodeRef) (value : TValue) :
    Option (List (TNodeRef × TNode TKey TValue)) :=
  match deref l it with
  | none => none
  | some _ =>
    some (l.map (fun n => if n.1 = it then (n.1, { n.2 with Value := value }) else n))

/-- Relocation `List.splice(List.begin(), List, it, std::next(it))`: the node at `it` is
unlinked and linked again before the first node; it keeps its address. -/
def spliceToBegin (l : List (TNodeRef × TNode TKey TValue)) (it : TNodeRef) :
    Option (List (TNodeRef × TNode TKey TValue)) :=
  match l.find? (fun n => decide (n.1 = it)) with
  | none => none
  | some n => some (n :: l.eraseP (fun n => decide (n.1 = it)))

/-- Address given to the node created by `emplace_back`: one that no node of the list has. -/
def freshRef (l : List (TNodeRef × TNode TKey TValue)) : TNodeRef :=
  (l.map (fun n => n.1)).foldr max 0 + 1

end Containers

section Cache

variable {TKey TValue : Type} [DecidableEq TKey] {Capacity : Nat}

/-- Default-constructed cache: both containers empty. -/
def empty : TLRUCache TKey TValue Capacity :=
  { Map := [], List := [] }

/-- Method `TLRUCache::Get`: the returned pointer (`none` is `nullptr`, `some v` points to a
stored value `v`) and the cache after the call. -/
def Get (c : TLRUCache TKey TValue Capacity) (key : TKey) :
    Option (Option TValue × TLRUCache TKey TValue Capacity) :=
  match mapFind c.Map key with
  | none => some (none, c)
  | some it =>
    match deref c.List it with
    | none => none
    | some node => some (some node.Value, c)

/-- Method `TLRUCache::DropLRU`: `Map.erase(List.front().Key); List.pop_front();`. -/
def DropLRU (c : TLRUCache TKey TValue Capacity) : Option (TLRUCache TKey TValue Capacity) :=
  match c.List with
  | [] => none
  | n :: rest => some { Map := mapErase c.Map n.2.Key, List := rest }

/-- Method `TLRUCache::Put`. -/
def Put (c : TLRUCache TKey TValue Capacity) (key : TKey) (value : TValue) :
    Option (TLRUCache TKey TValue Capacity) :=
  match mapFind c.Map key with
  | some listIter =>
    match setValue c.List listIter value with
    | none => none
    | some l =>
      if some listIter ≠ listBegin l then
        match spliceToBegin l listIter with
        | none => none
        | some l2 => some { Map := c.Map, List := l2 }
      else
        some { Map := c.Map, List := l }
  | none =>
    match (if c.Map.length = Capacity then DropLRU c else some c) with
    | none => none
    | some c1 =>
      some { Map := mapAssign c1.Map key (freshRef c1.List),
             List := c1.List ++ [(freshRef c1.List, { Key := key, Value := value })] }

/-- Method `TLRUCache::CheckState` (debug build): every node's key is in the map. -/
def CheckState (c : TLRUCache TKey TValue Capacity) : Bool :=
  c.List.all (fun node => decide (c.Map.countP (fun e => decide (e.1 = node.2.Key)) ≠ 0))

/-- One call of the public interface. -/
inductive Call (TKey TValue : Type) where
  | get (key : TKey)
  | put (key : TKey) (value : TValue)
deriving DecidableEq, Repr

/-- Key a call is made with. -/
def Call.key : Call TKey TValue → TKey
  | .get key => key
  | .put key _ => key

/-- Cache after one call. -/
def step (c : TLRUCache TKey TValue Capacity) : Call TKey TValue →
    Option (TLRUCache TKey TValue Capacity)
  | .get key => (Get c key).map (fun r => r.2)
  | .put key value => Put c key value

/-- Cache after a sequence of calls, made in order. -/
def run (c : TLRUCache TKey TValue Capacity) : List (Call TKey TValue) →
    Option (TLRUCache TKey TValue Capacity)
  | [] => some c
  | call :: calls =>
    match step c call with
    | none => none
    | some c1 => run c1 calls

/-- States the cache can be in: those a sequence of `Get`/`Put` calls produces from the
default-constructed cache. -/
def Reachable (c : TLRUCache TKey TValue Capacity) : Prop :=
  ∃ calls : List (Call TKey TValue), run (empty : TLRUCache TKey TValue Capacity) calls = some c

/-- Value the pointer returned by `Get` points to (`none`: `nullptr`, or no result). -/
def lookup (c : TLRUCache TKey TValue Capacity) (key : TKey) : Option TValue :=
  match Get c key with
  | some (r, _) => r
  | none => none

/-- Keys of the list nodes, from `List.front()` to `List.back()`. -/
def keyOrder (c : TLRUCache TKey TValue Capacity) : List TKey :=
  c.List.map (fun n => n.2.Key)

/-- Key and value of each list node, from `List.front()` to `List.back()`. -/
def entries (c : TLRUCache TKey TValue Capacity) : List (TKey × TValue) :=
  c.List.map (fun n => (n.2.Key, n.2.Value))

/-- Keys of the list of `c`, from front to back, without `key` and without the keys that the
list of `other` does not hold. -/
def commonOrder (c other : TLRUCache TKey TValue Capacity) (key : TKey) : List TKey :=
  (keyOrder c).filter (fun x => decide (x ≠ key ∧ x ∈ keyOrder other))

/-- Calls `Put(k1, v1), ..., Put(kn, vn)`. -/
def puts (kvs : List (TKey × TValue)) : List (Call TKey TValue) :=
  kvs.map (fun kv => Call.put kv.1 kv.2)

/-- Pair the map holds for a node: the node's key and the node's address. -/
def indexEntry (n : TNodeRef × TNode TKey TValue) : TKey × TNodeRef :=
  (n.2.Key, n.1)

/-- Consistency of the two containers: node addresses are distinct, node keys are distinct,
the map holds exactly one pair per node (I2, I3), and at most `Capacity` nodes exist (I1). -/
structure Inv (c : TLRUCache TKey TValue Capacity) : Prop where
  refs_nodup : (c.List.map Prod.fst).Nodup
  keys_nodup : (keyOrder c).Nodup
  index : c.Map.Perm (c.List.map indexEntry)
  bound : c.List.length ≤ Capacity

end Cache

/-! ## Container lemmas -/

section ContainerLemmas

set_option linter.unusedSectionVars false

variable {TKey TValue : Type} [DecidableEq TKey]

theorem find?_of_unique {α : Type} (p : α → Bool) (l : List α) (a : α) (ha : a ∈ l)
    (hp : p a = true) (huniq : ∀ b ∈ l, p b = true → b = a) : l.find? p = some a := by
  induction l with
  | nil => cases ha
  | cons x xs ih =>
    by_cases hx : p x = true
    · have hxa : x = a := huniq x (List.mem_cons_self _ _) hx
      subst hxa
      exact List.find?_cons_of_pos _ hx
    · rw [List.find?_cons_of_neg _ hx]
      rcases List.mem_cons.mp ha with h | h
      · subst h
        exact absurd hp hx
      · exact ih h (fun b hb => huniq b (List.mem_cons_of_mem _ hb))

theorem mapFind_eq_none (m : List (TKey × TNodeRef)) (key : TKey) :
    mapFind m key = none ↔ key ∉ m.map Prod.fst := by
  unfold mapFind
  rw [Option.map_eq_none', List.find?_eq_none]
  constructor
  · intro h hmem
    obtain ⟨e, he, hk⟩ := List.mem_map.mp hmem
    exact h e he (by simpa using hk)
  · intro h e he hk
    exact h (List.mem_map.mpr ⟨e, he, by simpa using hk⟩)

theorem mapFind_of_mem (m : List (TKey × TNodeRef)) (key : TKey) (it : TNodeRef)
    (hnd : (m.map Prod.fst).Nodup) (hmem : (key, it) ∈ m) : mapFind m key = some it := by
  unfold mapFind
  rw [find?_of_unique _ m (key, it) hmem (by simp)]
  · rfl
  · intro b hb hk
    have hk2 : b.1 = key := by simpa using hk
    exact List.inj_on_of_nodup_map hnd hb hmem hk2

theorem mapFind_mem (m : List (TKey × TNodeRef)) (key : TKey) (it : TNodeRef)
    (h : mapFind m key = some it) : (key, it) ∈ m := by
  unfold mapFind at h
  obtain ⟨e, he, hit⟩ := Option.map_eq_some'.mp h
  have hk : e.1 = key := by simpa using List.find?_some he
  have hmem := List.mem_of_find?_eq_some he
  rw [← hk, ← hit]
  exact hmem

theorem deref_of_mem (l : List (TNodeRef × TNode TKey TValue)) (it : TNodeRef)
    (node : TNode TKey TValue) (hnd : (l.map Prod.fst).Nodup) (hmem : (it, node) ∈ l) :
    deref l it = some node := by
  unfold deref
  rw [find?_of_unique _ l (it, node) hmem (by simp)]
  · rfl
  · intro b hb hk
    have hk2 : b.1 = it := by simpa using hk
    exact List.inj_on_of_nodup_map hnd hb hmem hk2

theorem lt_freshRef (l : List (TNodeRef × TNode TKey TValue)) :
    ∀ n ∈ l, n.1 < freshRef l := by
  induction l with
  | nil => intro n hn; cases hn
  | cons x xs ih =>
    intro n hn
    have hfx : freshRef (x :: xs) = max x.1 (freshRef xs - 1) + 1 := by
      simp [freshRef]
    rcases List.mem_cons.mp hn with h | h
    · subst h
      rw [hfx]
      exact Nat.lt_succ_of_le (le_max_left _ _)
    · have h1 : n.1 < freshRef xs := ih n h
      rw [hfx]
      exact Nat.lt_succ_of_le (le_trans (Nat.le_sub_one_of_lt h1) (le_max_right _ _))

theorem freshRef_not_mem (l : List (TNodeRef × TNode TKey TValue)) :
    freshRef l ∉ l.map Prod.fst := by
  intro hmem
  obtain ⟨n, hn, hk⟩ := List.mem_map.mp hmem
  have h1 : n.1 < freshRef l := lt_freshRef l n hn
  rw [hk] at h1
  exact lt_irrefl _ h1

end ContainerLemmas

/-! ## The operations on a consistent cache -/

section CacheLemmas

set_option linter.unusedSectionVars false

variable {TKey TValue : Type} [DecidableEq TKey] {Capacity : Nat}

theorem empty_inv : Inv (empty : TLRUCache TKey TValue Capacity) := by
  refine ⟨?_, ?_, ?_, ?_⟩ <;> simp [empty, keyOrder]

theorem map_keys_perm {c : TLRUCache TKey TValue Capacity} (h : Inv c) :
    (c.Map.map Prod.fst).Perm (keyOrder c) := by
  have h1 := h.index.map Prod.fst
  simpa [keyOrder, indexEntry, List.map_map, Function.comp_def] using h1

theorem map_keys_nodup {c : TLRUCache TKey TValue Capacity} (h : Inv c) :
    (c.Map.map Prod.fst).Nodup :=
  (map_keys_perm h).nodup_iff.mpr h.keys_nodup

theorem map_length {c : TLRUCache TKey TValue Capacity} (h : Inv c) :
    c.Map.length = c.List.length := by
  simpa using h.index.length_eq

theorem mapFind_of_node {c : TLRUCache TKey TValue Capacity} (h : Inv c) (it : TNodeRef)
    (node : TNode TKey TValue) (hmem : (it, node) ∈ c.List) :
    mapFind c.Map node.Key = some it := by
  apply mapFind_of_mem _ _ _ (map_keys_nodup h)
  exact h.index.mem_iff.mpr (List.mem_map.mpr ⟨(it, node), hmem, rfl⟩)

theorem mapFind_none_iff {c : TLRUCache TKey TValue Capacity} (h : Inv c) (key : TKey) :
    mapFind c.Map key = none ↔ key ∉ keyOrder c := by
  rw [mapFind_eq_none, (map_keys_perm h).mem_iff]

theorem Get_of_mapFind_none (c : TLRUCache TKey TValue Capacity) (key : TKey)
    (h : mapFind c.Map key = none) : Get c key = some (none, c) := by
  simp [Get, h]

theorem Get_of_node {c : TLRUCache TKey TValue Capacity} (h : Inv c) (it : TNodeRef)
    (node : TNode TKey TValue) (hmem : (it, node) ∈ c.List) :
    Get c node.Key = some (some node.Value, c) := by
  simp [Get, mapFind_of_node h it node hmem, deref_of_mem c.List it node h.refs_nodup hmem]

theorem Get_of_not_mem {c : TLRUCache TKey TValue Capacity} (h : Inv c) (key : TKey)
    (hk : key ∉ keyOrder c) : Get c key = some (none, c) :=
  Get_of_mapFind_none c key ((mapFind_none_iff h key).mpr hk)

theorem Get_total {c : TLRUCache TKey TValue Capacity} (h : Inv c) (key : TKey) :
    Get c key = some (lookup c key, c) := by
  by_cases hk : key ∈ keyOrder c
  · obtain ⟨n, hn, hkey⟩ := List.mem_map.mp hk
    have hg := Get_of_node h n.1 n.2 hn
    rw [hkey] at hg
    simp [lookup, hg]
  · have hg := Get_of_not_mem h key hk
    simp [lookup, hg]

theorem Put_of_room (c : TLRUCache TKey TValue Capacity) (key : TKey) (value : TValue)
    (hfind : mapFind c.Map key = none) (hroom : c.Map.length ≠ Capacity) :
    Put c key value =
      some { Map := c.Map ++ [(key, freshRef c.List)],
             List := c.List ++ [(freshRef c.List, { Key := key, Value := value })] } := by
  simp [Put, hfind, hroom, mapAssign]

theorem Put_of_full (c : TLRUCache TKey TValue Capacity) (key : TKey) (value : TValue)
    (n : TNodeRef × TNode TKey TValue) (rest : List (TNodeRef × TNode TKey TValue))
    (hfind : mapFind c.Map key = none) (hfull : c.Map.length = Capacity)
    (hl : c.List = n :: rest) :
    Put c key value =
      some { Map := mapErase c.Map n.2.Key ++ [(key, freshRef rest)],
             List := rest ++ [(freshRef rest, { Key := key, Value := value })] } := by
  have h2 : mapFind (mapErase c.Map n.2.Key) key = none := by
    rw [mapFind_eq_none] at hfind ⊢
    intro hm
    apply hfind
    obtain ⟨e, he, hk⟩ := List.mem_map.mp hm
    exact List.mem_map.mpr ⟨e, (List.mem_filter.mp he).1, hk⟩
  simp [Put, hfind, hfull, DropLRU, hl, mapAssign, h2]

theorem refs_split {l₁ l₂ : List (TNodeRef × TNode TKey TValue)} {n : TNodeRef × TNode TKey TValue}
    (hnd : ((l₁ ++ n :: l₂).map Prod.fst).Nodup) :
    (∀ b ∈ l₁, b.1 ≠ n.1) ∧ (∀ b ∈ l₂, b.1 ≠ n.1) := by
  rw [List.map_append, List.map_cons] at hnd
  have h1 := (List.nodup_middle.mp hnd)
  have h2 := (List.nodup_cons.mp h1).1
  constructor
  · intro b hb hk
    exact h2 (List.mem_append_left _ (List.mem_map.mpr ⟨b, hb, hk⟩))
  · intro b hb hk
    exact h2 (List.mem_append_right _ (List.mem_map.mpr ⟨b, hb, hk⟩))

theorem map_store_of_ne (l : List (TNodeRef × TNode TKey TValue)) (it : TNodeRef)
    (value : TValue) (h : ∀ b ∈ l, b.1 ≠ it) :
    l.map (fun n => if n.1 = it then (n.1, { n.2 with Value := value }) else n) = l := by
  induction l with
  | nil => rfl
  | cons x xs ih =>
    have hx : x.1 ≠ it := h x (List.mem_cons_self _ _)
    simp [hx, ih (fun b hb => h b (List.mem_cons_of_mem _ hb))]

theorem setValue_split (l₁ l₂ : List (TNodeRef × TNode TKey TValue)) (it : TNodeRef)
    (key : TKey) (v0 value : TValue)
    (hnd : ((l₁ ++ (it, { Key := key, Value := v0 }) :: l₂).map Prod.fst).Nodup) :
    setValue (l₁ ++ (it, { Key := key, Value := v0 }) :: l₂) it value =
      some (l₁ ++ (it, { Key := key, Value := value }) :: l₂) := by
  obtain ⟨h1, h2⟩ := refs_split hnd
  have hd := deref_of_mem _ it { Key := key, Value := v0 } hnd (by simp)
  simp [setValue, hd, map_store_of_ne l₁ it value h1, map_store_of_ne l₂ it value h2]

theorem spliceToBegin_split (l₁ l₂ : List (TNodeRef × TNode TKey TValue))
    (n : TNodeRef × TNode TKey TValue) (hnd : ((l₁ ++ n :: l₂).map Prod.fst).Nodup) :
    spliceToBegin (l₁ ++ n :: l₂) n.1 = some (n :: (l₁ ++ l₂)) := by
  obtain ⟨h1, _⟩ := refs_split hnd
  have hf : (l₁ ++ n :: l₂).find? (fun b => decide (b.1 = n.1)) = some n := by
    apply find?_of_unique _ _ n (by simp) (by simp)
    intro b hb hk
    exact List.inj_on_of_nodup_map hnd hb (by simp) (by simpa using hk)
  have he : (l₁ ++ n :: l₂).eraseP (fun b => decide (b.1 = n.1)) = l₁ ++ l₂ := by
    rw [List.eraseP_append_right _ (by simpa using h1), List.eraseP_cons_of_pos (by simp)]
  simp [spliceToBegin, hf, he]

theorem Put_of_present {c : TLRUCache TKey TValue Capacity} (h : Inv c) (key : TKey)
    (value v0 : TValue) (it : TNodeRef) (l₁ l₂ : List (TNodeRef × TNode TKey TValue))
    (hl : c.List = l₁ ++ (it, { Key := key, Value := v0 }) :: l₂) :
    Put c key value =
      some { Map := c.Map, List := (it, { Key := key, Value := value }) :: (l₁ ++ l₂) } := by
  have hnd := h.refs_nodup
  rw [hl] at hnd
  have hfind : mapFind c.Map key = some it :=
    mapFind_of_node h it { Key := key, Value := v0 } (by rw [hl]; simp)
  have hset := setValue_split l₁ l₂ it key v0 value hnd
  have hnd2 : ((l₁ ++ (it, ({ Key := key, Value := value } : TNode TKey TValue)) :: l₂).map
      Prod.fst).Nodup := by
    simpa using hnd
  cases l₁ with
  | nil =>
    simp [Put, hfind, hl, hset, listBegin] at *
  | cons x xs =>
    have hx : x.1 ≠ it := (refs_split hnd).1 x (List.mem_cons_self _ _)
    have hsp : spliceToBegin (x :: (xs ++ (it, { Key := key, Value := value }) :: l₂)) it =
        some ((it, { Key := key, Value := value }) :: x :: (xs ++ l₂)) :=
      spliceToBegin_split (x :: xs) l₂ (it, { Key := key, Value := value }) hnd2
    have hne : ¬ (it = x.1) := fun e => hx e.symm
    rw [← hl] at hset
    simp only [Put, hfind, hset]
    simp [listBegin, hne, hsp]

theorem inv_of_present {c : TLRUCache TKey TValue Capacity} (h : Inv c) (key : TKey)
    (value v0 : TValue) (it : TNodeRef) (l₁ l₂ : List (TNodeRef × TNode TKey TValue))
    (hl : c.List = l₁ ++ (it, { Key := key, Value := v0 }) :: l₂) :
    Inv ({ Map := c.Map, List := (it, { Key := key, Value := value }) :: (l₁ ++ l₂) } :
      TLRUCache TKey TValue Capacity) := by
  have hr := h.refs_nodup
  have hk := h.keys_nodup
  have hi := h.index
  have hb := h.bound
  unfold keyOrder at hk
  rw [hl] at hr hk hi hb
  rw [List.map_append, List.map_cons] at hr hk hi
  refine ⟨?_, ?_, ?_, ?_⟩
  · show (List.map Prod.fst ((it, _) :: (l₁ ++ l₂))).Nodup
    rw [List.map_cons, List.map_append]
    exact List.nodup_middle.mp hr
  · show (List.map (fun n => n.2.Key) ((it, _) :: (l₁ ++ l₂))).Nodup
    rw [List.map_cons, List.map_append]
    exact List.nodup_middle.mp hk
  · show c.Map.Perm (List.map indexEntry ((it, _) :: (l₁ ++ l₂)))
    rw [List.map_cons, List.map_append]
    exact hi.trans List.perm_middle
  · show ((it, _) :: (l₁ ++ l₂)).length ≤ Capacity
    simp only [List.length_cons, List.length_append] at hb ⊢
    omega

theorem inv_of_room {c : TLRUCache TKey TValue Capacity} (h : Inv c) (key : TKey)
    (value : TValue) (hk : key ∉ keyOrder c) (hroom : c.List.length < Capacity) :
    Inv ({ Map := c.Map ++ [(key, freshRef c.List)],
           List := c.List ++ [(freshRef c.List, { Key := key, Value := value })] } :
      TLRUCache TKey TValue Capacity) := by
  refine ⟨?_, ?_, ?_, ?_⟩
  · show (List.map Prod.fst (c.List ++ [(freshRef c.List, _)])).Nodup
    rw [List.map_append]
    exact (List.perm_append_singleton _ _).nodup_iff.mpr
      (List.nodup_cons.mpr ⟨freshRef_not_mem c.List, h.refs_nodup⟩)
  · show (List.map (fun n => n.2.Key) (c.List ++ [(freshRef c.List, _)])).Nodup
    rw [List.map_append]
    exact (List.perm_append_singleton _ _).nodup_iff.mpr
      (List.nodup_cons.mpr ⟨hk, h.keys_nodup⟩)
  · show (c.Map ++ [(key, freshRef c.List)]).Perm
      (List.map indexEntry (c.List ++ [(freshRef c.List, _)]))
    rw [List.map_append]
    exact h.index.append_right _
  · show (c.List ++ [(freshRef c.List, _)]).length ≤ Capacity
    simp only [List.length_append, List.length_singleton]
    omega

theorem mapErase_front {c : TLRUCache TKey TValue Capacity} (h : Inv c)
    (n : TNodeRef × TNode TKey TValue) (rest : List (TNodeRef × TNode TKey TValue))
    (hl : c.List = n :: rest) :
    (mapErase c.Map n.2.Key).Perm (rest.map indexEntry) := by
  have hk := h.keys_nodup
  unfold keyOrder at hk
  rw [hl, List.map_cons] at hk
  have hn := (List.nodup_cons.mp hk).1
  have hp := h.index.filter (fun e => decide (e.1 ≠ n.2.Key))
  rw [hl, List.map_cons] at hp
  have hf : List.filter (fun e => decide (e.1 ≠ n.2.Key)) (indexEntry n :: rest.map indexEntry)
      = rest.map indexEntry := by
    rw [List.filter_cons_of_neg (by simp [indexEntry])]
    apply List.filter_eq_self.mpr
    intro e he
    obtain ⟨b, hb, hbe⟩ := List.mem_map.mp he
    have hne : b.2.Key ≠ n.2.Key := by
      intro heq
      exact hn (List.mem_map.mpr ⟨b, hb, heq⟩)
    rw [← hbe]
    simpa [indexEntry] using hne
  rw [hf] at hp
  exact hp

theorem inv_of_full {c : TLRUCache TKey TValue Capacity} (h : Inv c) (key : TKey)
    (value : TValue) (n : TNodeRef × TNode TKey TValue)
    (rest : List (TNodeRef × TNode TKey TValue)) (hk : key ∉ keyOrder c)
    (hl : c.List = n :: rest) :
    Inv ({ Map := mapErase c.Map n.2.Key ++ [(key, freshRef rest)],
           List := rest ++ [(freshRef rest, { Key := key, Value := value })] } :
      TLRUCache TKey TValue Capacity) := by
  have hr := h.refs_nodup
  have hkn := h.keys_nodup
  have hb := h.bound
  unfold keyOrder at hkn hk
  rw [hl] at hr hkn hb hk
  rw [List.map_cons] at hr hkn hk
  refine ⟨?_, ?_, ?_, ?_⟩
  · show (List.map Prod.fst (rest ++ [(freshRef rest, _)])).Nodup
    rw [List.map_append]
    exact (List.perm_append_singleton _ _).nodup_iff.mpr
      (List.nodup_cons.mpr ⟨freshRef_not_mem rest, (List.nodup_cons.mp hr).2⟩)
  · show (List.map (fun n => n.2.Key) (rest ++ [(freshRef rest, _)])).Nodup
    rw [List.map_append]
    exact (List.perm_append_singleton _ _).nodup_iff.mpr
      (List.nodup_cons.mpr ⟨fun hm => hk (List.mem_cons_of_mem _ hm), (List.nodup_cons.mp hkn).2⟩)
  · show (mapErase c.Map n.2.Key ++ [(key, freshRef rest)]).Perm
      (List.map indexEntry (rest ++ [(freshRef rest, _)]))
    rw [List.map_append]
    exact (mapErase_front h n rest hl).append_right _
  · show (rest ++ [(freshRef rest, _)]).length ≤ Capacity
    simp only [List.length_append, List.length_cons, List.length_nil] at hb ⊢
    omega

theorem exists_split_of_key (c : TLRUCache TKey TValue Capacity) (key : TKey)
    (hk : key ∈ keyOrder c) :
    ∃ (it : TNodeRef) (v0 : TValue) (l₁ l₂ : List (TNodeRef × TNode TKey TValue)),
      c.List = l₁ ++ (it, { Key := key, Value := v0 }) :: l₂ := by
  obtain ⟨n, hn, hkey⟩ := List.mem_map.mp hk
  obtain ⟨l₁, l₂, hl⟩ := List.append_of_mem hn
  obtain ⟨it, k, v0⟩ := n
  simp only at hkey
  subst hkey
  exact ⟨it, v0, l₁, l₂, hl⟩

theorem room_of_ne {c : TLRUCache TKey TValue Capacity} (h : Inv c)
    (hroom : c.Map.length ≠ Capacity) : c.List.length < Capacity := by
  have h1 := map_length h
  have h2 := h.bound
  omega

theorem Put_inv {c : TLRUCache TKey TValue Capacity} (h : Inv c) (key : TKey) (value : TValue)
    (c1 : TLRUCache TKey TValue Capacity) (hp : Put c key value = some c1) : Inv c1 := by
  by_cases hk : key ∈ keyOrder c
  · obtain ⟨it, v0, l₁, l₂, hl⟩ := exists_split_of_key c key hk
    rw [Put_of_present h key value v0 it l₁ l₂ hl] at hp
    cases hp
    exact inv_of_present h key value v0 it l₁ l₂ hl
  · have hfind := (mapFind_none_iff h key).mpr hk
    by_cases hfull : c.Map.length = Capacity
    · cases hl : c.List with
      | nil => simp [Put, hfind, hfull, DropLRU, hl] at hp
      | cons n rest =>
        rw [Put_of_full c key value n rest hfind hfull hl] at hp
        cases hp
        exact inv_of_full h key value n rest hk hl
    · rw [Put_of_room c key value hfind hfull] at hp
      cases hp
      exact inv_of_room h key value hk (room_of_ne h hfull)

theorem front_of_full {c : TLRUCache TKey TValue Capacity} (h : Inv c) (hcap : 1 ≤ Capacity)
    (hfull : c.Map.length = Capacity) :
    ∃ (n : TNodeRef × TNode TKey TValue) (rest : List (TNodeRef × TNode TKey TValue)),
      c.List = n :: rest := by
  cases hl : c.List with
  | nil =>
    have h1 : c.Map.length = 0 := by rw [map_length h, hl]; rfl
    omega
  | cons n rest => exact ⟨n, rest, rfl⟩

theorem Put_total {c : TLRUCache TKey TValue Capacity} (h : Inv c) (hcap : 1 ≤ Capacity)
    (key : TKey) (value : TValue) : ∃ c1, Put c key value = some c1 := by
  by_cases hk : key ∈ keyOrder c
  · obtain ⟨it, v0, l₁, l₂, hl⟩ := exists_split_of_key c key hk
    exact ⟨_, Put_of_present h key value v0 it l₁ l₂ hl⟩
  · have hfind := (mapFind_none_iff h key).mpr hk
    by_cases hfull : c.Map.length = Capacity
    · obtain ⟨n, rest, hl⟩ := front_of_full h hcap hfull
      exact ⟨_, Put_of_full c key value n rest hfind hfull hl⟩
    · exact ⟨_, Put_of_room c key value hfind hfull⟩

theorem step_get {c : TLRUCache TKey TValue Capacity} (h : Inv c) (key : TKey) :
    step c (Call.get key) = some c := by
  simp [step, Get_total h key]

theorem step_inv {c : TLRUCache TKey TValue Capacity} (h : Inv c) (call : Call TKey TValue)
    (c1 : TLRUCache TKey TValue Capacity) (hs : step c call = some c1) : Inv c1 := by
  cases call with
  | get key =>
    rw [step_get h key] at hs
    cases hs
    exact h
  | put key value => exact Put_inv h key value c1 hs

theorem step_total {c : TLRUCache TKey TValue Capacity} (h : Inv c) (hcap : 1 ≤ Capacity)
    (call : Call TKey TValue) : ∃ c1, step c call = some c1 := by
  cases call with
  | get key => exact ⟨c, step_get h key⟩
  | put key value => exact Put_total h hcap key value

theorem run_inv (calls : List (Call TKey TValue)) :
    ∀ (c c1 : TLRUCache TKey TValue Capacity), Inv c → run c calls = some c1 → Inv c1 := by
  induction calls with
  | nil =>
    intro c c1 h hr
    simp only [run] at hr
    cases hr
    exact h
  | cons call calls ih =>
    intro c c1 h hr
    simp only [run] at hr
    cases hs : step c call with
    | none => simp [hs] at hr
    | some c2 =>
      rw [hs] at hr
      exact ih c2 c1 (step_inv h call c2 hs) hr

theorem run_total (hcap : 1 ≤ Capacity) (calls : List (Call TKey TValue)) :
    ∀ (c : TLRUCache TKey TValue Capacity), Inv c → ∃ c1, run c calls = some c1 := by
  induction calls with
  | nil => intro c _; exact ⟨c, rfl⟩
  | cons call calls ih =>
    intro c h
    obtain ⟨c2, hs⟩ := step_total h hcap call
    obtain ⟨c1, hr⟩ := ih c2 (step_inv h call c2 hs)
    exact ⟨c1, by simp [run, hs, hr]⟩

theorem reachable_inv {c : TLRUCache TKey TValue Capacity} (hr : Reachable c) : Inv c := by
  obtain ⟨calls, hc⟩ := hr
  exact run_inv calls _ c empty_inv hc

theorem run_append (a b : List (Call TKey TValue)) :
    ∀ (c : TLRUCache TKey TValue Capacity),
      run c (a ++ b) = (run c a).bind (fun c1 => run c1 b) := by
  induction a with
  | nil => intro c; rfl
  | cons call a ih =>
    intro c
    cases hs : step c call with
    | none => simp [run, hs]
    | some c2 => simp [run, hs, ih c2]

theorem lookup_eq_some_iff {c : TLRUCache TKey TValue Capacity} (h : Inv c) (k : TKey)
    (v : TValue) :
    lookup c k = some v ↔ ∃ it : TNodeRef, (it, { Key := k, Value := v }) ∈ c.List := by
  constructor
  · intro hv
    by_cases hk : k ∈ keyOrder c
    · obtain ⟨n, hn, hkey⟩ := List.mem_map.mp hk
      obtain ⟨it, k0, v0⟩ := n
      simp only at hkey
      subst hkey
      have hg := Get_of_node h it { Key := k0, Value := v0 } hn
      simp only [lookup, hg, Option.some.injEq] at hv
      subst hv
      exact ⟨it, hn⟩
    · have hg := Get_of_not_mem h k hk
      simp [lookup, hg] at hv
  · rintro ⟨it, hmem⟩
    have hg := Get_of_node h it { Key := k, Value := v } hmem
    simp only at hg
    simp [lookup, hg]

theorem lookup_congr {c c1 : TLRUCache TKey TValue Capacity} (h : Inv c) (h1 : Inv c1)
    (k : TKey)
    (hm : ∀ (it : TNodeRef) (v : TValue),
      (it, ({ Key := k, Value := v } : TNode TKey TValue)) ∈ c1.List ↔
        (it, ({ Key := k, Value := v } : TNode TKey TValue)) ∈ c.List) :
    lookup c1 k = lookup c k := by
  apply Option.ext
  intro v
  show lookup c1 k = some v ↔ lookup c k = some v
  rw [lookup_eq_some_iff h1, lookup_eq_some_iff h]
  constructor
  · rintro ⟨it, hit⟩
    exact ⟨it, (hm it v).mp hit⟩
  · rintro ⟨it, hit⟩
    exact ⟨it, (hm it v).mpr hit⟩

theorem run_replicate_get {c : TLRUCache TKey TValue Capacity} (h : Inv c) (key : TKey)
    (m : Nat) : run c (List.replicate m (Call.get key)) = some c := by
  induction m with
  | zero => rfl
  | succ m ih => simp [List.replicate_succ, run, step_get h key, ih]

theorem Put_get_same {c : TLRUCache TKey TValue Capacity} (h : Inv c) (key : TKey)
    (value : TValue) (c1 : TLRUCache TKey TValue Capacity) (hp : Put c key value = some c1) :
    Get c1 key = some (some value, c1) := by
  have h1 := Put_inv h key value c1 hp
  suffices hmem : ∃ it : TNodeRef, (it, { Key := key, Value := value }) ∈ c1.List by
    obtain ⟨it, hit⟩ := hmem
    exact Get_of_node h1 it { Key := key, Value := value } hit
  by_cases hk : key ∈ keyOrder c
  · obtain ⟨it, v0, l₁, l₂, hl⟩ := exists_split_of_key c key hk
    rw [Put_of_present h key value v0 it l₁ l₂ hl] at hp
    cases hp
    exact ⟨it, List.mem_cons_self _ _⟩
  · have hfind := (mapFind_none_iff h key).mpr hk
    by_cases hfull : c.Map.length = Capacity
    · cases hl : c.List with
      | nil => simp [Put, hfind, hfull, DropLRU, hl] at hp
      | cons n rest =>
        rw [Put_of_full c key value n rest hfind hfull hl] at hp
        cases hp
        exact ⟨freshRef rest, by simp⟩
    · rw [Put_of_room c key value hfind hfull] at hp
      cases hp
      exact ⟨freshRef c.List, by simp⟩

theorem Put_present_frame {c : TLRUCache TKey TValue Capacity} (h : Inv c) (key : TKey)
    (value : TValue) (hk : key ∈ keyOrder c) :
    ∃ c1, Put c key value = some c1 ∧ c1.Map = c.Map ∧ c1.List.length = c.List.length ∧
      (keyOrder c1).Perm (keyOrder c) ∧ ∀ k, k ≠ key → lookup c1 k = lookup c k := by
  obtain ⟨it, v0, l₁, l₂, hl⟩ := exists_split_of_key c key hk
  have hp := Put_of_present h key value v0 it l₁ l₂ hl
  have h1 := inv_of_present h key value v0 it l₁ l₂ hl
  refine ⟨_, hp, rfl, ?_, ?_, ?_⟩
  · rw [hl]
    simp only [List.length_cons, List.length_append]
    omega
  · unfold keyOrder
    rw [hl]
    simp only [List.map_cons, List.map_append]
    exact List.perm_middle.symm
  · intro k hne
    apply lookup_congr h h1
    intro i v
    rw [hl]
    have hne2 : ¬ (k = key) := hne
    simp [hne2]

theorem Put_room_frame {c : TLRUCache TKey TValue Capacity} (h : Inv c) (key : TKey)
    (value : TValue) (hfind : mapFind c.Map key = none) (hroom : c.Map.length ≠ Capacity) :
    ∃ c1, Put c key value = some c1 ∧
      c1.Map = c.Map ++ [(key, freshRef c.List)] ∧
      c1.List = c.List ++ [(freshRef c.List, { Key := key, Value := value })] ∧
      ∀ k, k ≠ key → lookup c1 k = lookup c k := by
  have hk := (mapFind_none_iff h key).mp hfind
  have hp := Put_of_room c key value hfind hroom
  have h1 := inv_of_room h key value hk (room_of_ne h hroom)
  refine ⟨_, hp, rfl, rfl, ?_⟩
  intro k hne
  apply lookup_congr h h1
  intro i v
  have hne2 : ¬ (k = key) := hne
  simp [hne2]

theorem Put_full_frame {c : TLRUCache TKey TValue Capacity} (h : Inv c) (key : TKey)
    (value : TValue) (n : TNodeRef × TNode TKey TValue)
    (rest : List (TNodeRef × TNode TKey TValue)) (hfind : mapFind c.Map key = none)
    (hfull : c.Map.length = Capacity) (hl : c.List = n :: rest) :
    ∃ c1, Put c key value = some c1 ∧
      c1.Map = mapErase c.Map n.2.Key ++ [(key, freshRef rest)] ∧
      c1.List = rest ++ [(freshRef rest, { Key := key, Value := value })] ∧
      Get c1 n.2.Key = some (none, c1) ∧
      ∀ k, k ≠ key → k ≠ n.2.Key → lookup c1 k = lookup c k := by
  have hk := (mapFind_none_iff h key).mp hfind
  have hp := Put_of_full c key value n rest hfind hfull hl
  have h1 := inv_of_full h key value n rest hk hl
  have hkn := h.keys_nodup
  unfold keyOrder at hkn hk
  rw [hl, List.map_cons] at hkn hk
  refine ⟨_, hp, rfl, rfl, ?_, ?_⟩
  · apply Get_of_not_mem h1
    unfold keyOrder
    simp only [List.map_append, List.map_cons, List.map_nil, List.mem_append,
      List.mem_singleton, not_or]
    exact ⟨(List.nodup_cons.mp hkn).1, fun e => hk (by rw [e]; exact List.mem_cons_self _ _)⟩
  · intro k hne hne3
    apply lookup_congr h h1
    intro i v
    rw [hl]
    have hne2 : ¬ (k = key) := hne
    have hne4 : ¬ ((i, ({ Key := k, Value := v } : TNode TKey TValue)) = n) := by
      intro e
      exact hne3 (by rw [← e])
    simp [hne2, hne4]

theorem keyOrder_eq_entries (c : TLRUCache TKey TValue Capacity) :
    keyOrder c = (entries c).map Prod.fst := by
  simp [keyOrder, entries, List.map_map, Function.comp_def]

theorem mem_entries {c : TLRUCache TKey TValue Capacity} (k : TKey) (v : TValue)
    (h : (k, v) ∈ entries c) : ∃ it : TNodeRef, (it, { Key := k, Value := v }) ∈ c.List := by
  obtain ⟨n, hn, he⟩ := List.mem_map.mp h
  obtain ⟨it, k0, v0⟩ := n
  simp only [Prod.mk.injEq] at he
  obtain ⟨hk, hv⟩ := he
  subst hk
  subst hv
  exact ⟨it, hn⟩

theorem run_single (c : TLRUCache TKey TValue Capacity) (call : Call TKey TValue) :
    run c [call] = step c call := by
  cases hs : step c call <;> simp [run, hs]

theorem run_puts_distinct (hcap : 1 ≤ Capacity) (kvs : List (TKey × TValue)) :
    (kvs.map Prod.fst).Nodup →
    ∃ c : TLRUCache TKey TValue Capacity,
      run empty (puts kvs) = some c ∧ Inv c ∧
        entries c = kvs.drop (kvs.length - Capacity) := by
  induction kvs using List.reverseRecOn with
  | nil =>
    intro _
    exact ⟨empty, rfl, empty_inv, by simp [entries, empty]⟩
  | append_singleton kvs kv ih =>
    intro hnd
    rw [List.map_append, List.map_cons, List.map_nil] at hnd
    have hnd1 : (kvs.map Prod.fst).Nodup := (List.nodup_append.mp hnd).1
    have hnew : kv.1 ∉ kvs.map Prod.fst := by
      intro hm
      exact (List.nodup_append.mp hnd).2.2 hm (List.mem_singleton_self _)
    obtain ⟨c, hrun, h, hent⟩ := ih hnd1
    have hk : kv.1 ∉ keyOrder c := by
      rw [keyOrder_eq_entries, hent]
      intro hm
      exact hnew (((List.drop_sublist _ kvs).map Prod.fst).subset hm)
    have hfind := (mapFind_none_iff h kv.1).mpr hk
    have hlen : c.List.length = kvs.length - (kvs.length - Capacity) := by
      have h1 := congrArg List.length hent
      simpa [entries] using h1
    have hstep : run (empty : TLRUCache TKey TValue Capacity) (puts (kvs ++ [kv])) =
        Put c kv.1 kv.2 := by
      have hp : puts (kvs ++ [kv]) = puts kvs ++ [Call.put kv.1 kv.2] := by
        simp [puts]
      rw [hp, run_append, hrun]
      simp only [Option.some_bind]
      rw [run_single]
      rfl
    by_cases hfull : c.Map.length = Capacity
    · obtain ⟨n, rest, hl⟩ := front_of_full h hcap hfull
      obtain ⟨c1, hput, _, hlist, _, _⟩ := Put_full_frame h kv.1 kv.2 n rest hfind hfull hl
      refine ⟨c1, by rw [hstep, hput], Put_inv h kv.1 kv.2 c1 hput, ?_⟩
      have hml := map_length h
      have hge : Capacity ≤ kvs.length := by omega
      have htail : rest.map (fun n => (n.2.Key, n.2.Value)) =
          kvs.drop (kvs.length - Capacity + 1) := by
        have h2 := congrArg List.tail hent
        rw [List.tail_drop] at h2
        simpa [entries, hl] using h2
      have hd : (kvs ++ [kv]).length - Capacity = kvs.length - Capacity + 1 := by
        simp only [List.length_append, List.length_singleton]
        omega
      rw [hd, List.drop_append_of_le_length (by omega)]
      simp [entries, hlist, htail]
    · obtain ⟨c1, hput, _, hlist, _⟩ := Put_room_frame h kv.1 kv.2 hfind hfull
      refine ⟨c1, by rw [hstep, hput], Put_inv h kv.1 kv.2 c1 hput, ?_⟩
      have hml := map_length h
      have hlt := room_of_ne h hfull
      have hd : (kvs ++ [kv]).length - Capacity = 0 := by
        simp only [List.length_append, List.length_singleton]
        omega
      have hd0 : kvs.length - Capacity = 0 := by omega
      rw [hd0, List.drop_zero] at hent
      rw [hd, List.drop_zero]
      have hent2 : c.List.map (fun n => (n.2.Key, n.2.Value)) = kvs := hent
      simp [entries, hlist, hent2]

theorem Get_of_dropped {c : TLRUCache TKey TValue Capacity} (h : Inv c)
    (kvs : List (TKey × TValue)) (hnd : (kvs.map Prod.fst).Nodup) (d : Nat)
    (hent : entries c = kvs.drop d) (i : Nat) (hi : i < kvs.length) (hlt : i < d) :
    Get c kvs[i].1 = some (none, c) := by
  apply Get_of_not_mem h
  rw [keyOrder_eq_entries, hent]
  intro hm
  obtain ⟨e, he, hk⟩ := List.mem_map.mp hm
  obtain ⟨j, hj, hje⟩ := List.mem_drop_iff_getElem.mp he
  have hi2 : i < (kvs.map Prod.fst).length := by simpa using hi
  have hj2 : d + j < (kvs.map Prod.fst).length := by simp; omega
  have heq : (kvs.map Prod.fst)[i] = (kvs.map Prod.fst)[d + j] := by
    simp only [List.getElem_map]
    rw [hje, hk]
  have := (List.Nodup.getElem_inj_iff hnd).mp heq
  omega

theorem Get_of_kept {c : TLRUCache TKey TValue Capacity} (h : Inv c)
    (kvs : List (TKey × TValue)) (d : Nat)
    (hent : entries c = kvs.drop d) (i : Nat) (hi : i < kvs.length) (hle : d ≤ i) :
    Get c kvs[i].1 = some (some kvs[i].2, c) := by
  have hm : (kvs[i].1, kvs[i].2) ∈ entries c := by
    rw [hent]
    apply List.mem_drop_iff_getElem.mpr
    refine ⟨i - d, by omega, ?_⟩
    have hidx : d + (i - d) = i := by omega
    simp [hidx]
  obtain ⟨it, hit⟩ := mem_entries _ _ hm
  exact Get_of_node h it { Key := kvs[i].1, Value := kvs[i].2 } hit

theorem DropLRU_inv {c : TLRUCache TKey TValue Capacity} (h : Inv c)
    (c2 : TLRUCache TKey TValue Capacity) (hd : DropLRU c = some c2) : Inv c2 := by
  cases hl : c.List with
  | nil => simp [DropLRU, hl] at hd
  | cons n rest =>
    simp only [DropLRU, hl, Option.some.injEq] at hd
    subst hd
    have hr := h.refs_nodup
    have hk := h.keys_nodup
    have hb := h.bound
    unfold keyOrder at hk
    rw [hl] at hr hk hb
    rw [List.map_cons] at hr hk
    refine ⟨?_, ?_, ?_, ?_⟩
    · exact (List.nodup_cons.mp hr).2
    · exact (List.nodup_cons.mp hk).2
    · exact mapErase_front h n rest hl
    · show rest.length ≤ Capacity
      simp only [List.length_cons] at hb
      omega

theorem CheckState_of_inv {c : TLRUCache TKey TValue Capacity} (h : Inv c) :
    CheckState c = true := by
  unfold CheckState
  rw [List.all_eq_true]
  intro node hnode
  have hmem : indexEntry node ∈ c.Map :=
    h.index.mem_iff.mpr (List.mem_map.mpr ⟨node, hnode, rfl⟩)
  have hpos : 0 < c.Map.countP (fun e => decide (e.1 = node.2.Key)) :=
    List.countP_pos_iff.mpr ⟨indexEntry node, hmem, by simp [indexEntry]⟩
  simp only [ne_eq, decide_eq_true_eq]
  omega

theorem index_points_to_key {c : TLRUCache TKey TValue Capacity} (h : Inv c) (k : TKey)
    (it : TNodeRef) (hm : (k, it) ∈ c.Map) :
    ∃ node, deref c.List it = some node ∧ node.Key = k := by
  obtain ⟨n, hn, he⟩ := List.mem_map.mp (h.index.mem_iff.mp hm)
  obtain ⟨i, node⟩ := n
  simp only [indexEntry, Prod.mk.injEq] at he
  obtain ⟨hk, hi⟩ := he
  subst hi
  exact ⟨node, deref_of_mem c.List i node h.refs_nodup hn, hk⟩

theorem Put_length {c : TLRUCache TKey TValue Capacity} (h : Inv c) (key : TKey)
    (value : TValue) (c1 : TLRUCache TKey TValue Capacity) (hp : Put c key value = some c1) :
    (key ∈ keyOrder c → c1.List.length = c.List.length) ∧
    (key ∉ keyOrder c → c1.List.length = min (c.List.length + 1) Capacity) := by
  by_cases hk : key ∈ keyOrder c
  · obtain ⟨c1', hp', _, hlen, _, _⟩ := Put_present_frame h key value hk
    rw [hp] at hp'
    cases hp'
    exact ⟨fun _ => hlen, fun hn => absurd hk hn⟩
  · refine ⟨fun hy => absurd hy hk, fun _ => ?_⟩
    have hfind := (mapFind_none_iff h key).mpr hk
    have hml := map_length h
    by_cases hfull : c.Map.length = Capacity
    · cases hl : c.List with
      | nil => simp [Put, hfind, hfull, DropLRU, hl] at hp
      | cons n rest =>
        rw [Put_of_full c key value n rest hfind hfull hl] at hp
        cases hp
        rw [hl] at hml
        simp only [List.length_cons] at hml
        show (rest ++ [(freshRef rest, _)]).length = min ((n :: rest).length + 1) Capacity
        simp only [List.length_append, List.length_cons, List.length_nil]
        omega
    · rw [Put_of_room c key value hfind hfull] at hp
      cases hp
      have hlt := room_of_ne h hfull
      show (c.List ++ [(freshRef c.List, _)]).length = min (c.List.length + 1) Capacity
      simp only [List.length_append, List.length_cons, List.length_nil]
      omega

theorem step_length_le {c : TLRUCache TKey TValue Capacity} (h : Inv c)
    (call : Call TKey TValue) (c1 : TLRUCache TKey TValue Capacity)
    (hs : step c call = some c1) : c.List.length ≤ c1.List.length := by
  cases call with
  | get key =>
    rw [step_get h key] at hs
    cases hs
    exact le_refl _
  | put key value =>
    have hb := h.bound
    obtain ⟨h1, h2⟩ := Put_length h key value c1 hs
    by_cases hk : key ∈ keyOrder c
    · rw [h1 hk]
    · rw [h2 hk]
      omega

theorem run_length_le (calls : List (Call TKey TValue)) :
    ∀ (c c1 : TLRUCache TKey TValue Capacity), Inv c → run c calls = some c1 →
      c.List.length ≤ c1.List.length := by
  induction calls with
  | nil =>
    intro c c1 _ hr
    simp only [run] at hr
    cases hr
    exact le_refl _
  | cons call calls ih =>
    intro c c1 h hr
    simp only [run] at hr
    cases hs : step c call with
    | none => simp [hs] at hr
    | some c2 =>
      rw [hs] at hr
      exact le_trans (step_length_le h call c2 hs) (ih c2 c1 (step_inv h call c2 hs) hr)

theorem filter_ne_middle (K₁ K₂ : List TKey) (key : TKey) :
    (key :: (K₁ ++ K₂)).filter (fun x => decide (x ≠ key)) =
      (K₁ ++ key :: K₂).filter (fun x => decide (x ≠ key)) := by
  simp [List.filter_append, List.filter_cons]

theorem Put_order {c : TLRUCache TKey TValue Capacity} (h : Inv c) (key : TKey)
    (value : TValue) (c1 : TLRUCache TKey TValue Capacity) (hp : Put c key value = some c1) :
    commonOrder c1 c key = commonOrder c c1 key := by
  have hnd := h.keys_nodup
  by_cases hk : key ∈ keyOrder c
  · obtain ⟨it, v0, l₁, l₂, hl⟩ := exists_split_of_key c key hk
    rw [Put_of_present h key value v0 it l₁ l₂ hl] at hp
    cases hp
    have hc : keyOrder c = l₁.map (fun n => n.2.Key) ++ key :: l₂.map (fun n => n.2.Key) := by
      simp [keyOrder, hl]
    have hc1 : keyOrder ({ Map := c.Map, List := (it, { Key := key, Value := value }) ::
        (l₁ ++ l₂) } : TLRUCache TKey TValue Capacity) =
        key :: (l₁.map (fun n => n.2.Key) ++ l₂.map (fun n => n.2.Key)) := by
      simp [keyOrder]
    unfold commonOrder
    rw [hc1, hc]
    have e1 : (key :: (l₁.map (fun n => n.2.Key) ++ l₂.map (fun n => n.2.Key))).filter
        (fun x => decide (x ≠ key ∧
          x ∈ l₁.map (fun n => n.2.Key) ++ key :: l₂.map (fun n => n.2.Key))) =
        (key :: (l₁.map (fun n => n.2.Key) ++ l₂.map (fun n => n.2.Key))).filter
          (fun x => decide (x ≠ key)) := by
      apply List.filter_congr
      intro x hx
      have hm : x ∈ l₁.map (fun n => n.2.Key) ++ key :: l₂.map (fun n => n.2.Key) :=
        List.perm_middle.mem_iff.mpr hx
      simp [hm]
    have e2 : (l₁.map (fun n => n.2.Key) ++ key :: l₂.map (fun n => n.2.Key)).filter
        (fun x => decide (x ≠ key ∧
          x ∈ key :: (l₁.map (fun n => n.2.Key) ++ l₂.map (fun n => n.2.Key)))) =
        (l₁.map (fun n => n.2.Key) ++ key :: l₂.map (fun n => n.2.Key)).filter
          (fun x => decide (x ≠ key)) := by
      apply List.filter_congr
      intro x hx
      have hm : x ∈ key :: (l₁.map (fun n => n.2.Key) ++ l₂.map (fun n => n.2.Key)) :=
        List.perm_middle.mem_iff.mp hx
      simp [hm]
    rw [e1, e2, filter_ne_middle]
  · have hfind := (mapFind_none_iff h key).mpr hk
    by_cases hfull : c.Map.length = Capacity
    · cases hl : c.List with
      | nil => simp [Put, hfind, hfull, DropLRU, hl] at hp
      | cons n rest =>
        rw [Put_of_full c key value n rest hfind hfull hl] at hp
        cases hp
        have hc : keyOrder c = n.2.Key :: rest.map (fun n => n.2.Key) := by
          simp [keyOrder, hl]
        have hc1 : ∀ m : List (TKey × TNodeRef),
            keyOrder ({ Map := m, List := rest ++ [(freshRef rest, ⟨key, value⟩)] } :
              TLRUCache TKey TValue Capacity) = rest.map (fun n => n.2.Key) ++ [key] := by
          intro m
          simp [keyOrder]
        rw [hc] at hk hnd
        have hnr : n.2.Key ∉ rest.map (fun n => n.2.Key) := (List.nodup_cons.mp hnd).1
        have hkn : ¬ (n.2.Key = key) := fun e => hk (by rw [e]; exact List.mem_cons_self _ _)
        have hkr : key ∉ rest.map (fun n => n.2.Key) :=
          fun hm => hk (List.mem_cons_of_mem _ hm)
        unfold commonOrder
        rw [hc1, hc]
        have hl1 : (rest.map (fun n => n.2.Key)).filter (fun x => decide (x ≠ key ∧
            x ∈ n.2.Key :: rest.map (fun n => n.2.Key))) = rest.map (fun n => n.2.Key) := by
          apply List.filter_eq_self.mpr
          intro x hx
          have hxk : x ≠ key := fun e => hkr (by rw [← e]; exact hx)
          simp only [decide_eq_true_eq]
          exact ⟨hxk, List.mem_cons_of_mem _ hx⟩
        have hl2 : (rest.map (fun n => n.2.Key)).filter (fun x => decide (x ≠ key ∧
            x ∈ rest.map (fun n => n.2.Key) ++ [key])) = rest.map (fun n => n.2.Key) := by
          apply List.filter_eq_self.mpr
          intro x hx
          have hxk : x ≠ key := fun e => hkr (by rw [← e]; exact hx)
          simp only [decide_eq_true_eq]
          exact ⟨hxk, List.mem_append_left _ hx⟩
        rw [List.filter_append, hl1, List.filter_cons_of_neg (by simp),
          List.filter_cons_of_neg (by
            simp only [decide_eq_true_eq, not_and, List.mem_append, List.mem_singleton]
            intro _ hor
            rcases hor with hx | hx
            · exact hnr hx
            · exact hkn hx), hl2]
        simp
    · rw [Put_of_room c key value hfind hfull] at hp
      cases hp
      have hc1 : ∀ m : List (TKey × TNodeRef),
          keyOrder ({ Map := m, List := c.List ++ [(freshRef c.List, ⟨key, value⟩)] } :
            TLRUCache TKey TValue Capacity) = keyOrder c ++ [key] := by
        intro m
        simp [keyOrder]
      unfold commonOrder
      rw [hc1]
      have hl1 : (keyOrder c).filter (fun x => decide (x ≠ key ∧ x ∈ keyOrder c)) =
          keyOrder c := by
        apply List.filter_eq_self.mpr
        intro x hx
        have hxk : x ≠ key := fun e => hk (by rw [← e]; exact hx)
        simp only [decide_eq_true_eq]
        exact ⟨hxk, hx⟩
      have hl2 : (keyOrder c).filter (fun x => decide (x ≠ key ∧ x ∈ keyOrder c ++ [key])) =
          keyOrder c := by
        apply List.filter_eq_self.mpr
        intro x hx
        have hxk : x ≠ key := fun e => hk (by rw [← e]; exact hx)
        simp only [decide_eq_true_eq]
        exact ⟨hxk, List.mem_append_left _ hx⟩
      rw [List.filter_append, hl1, List.filter_cons_of_neg (by simp), hl2]
      simp

end CacheLemmas

/-! ## The claims -/

section Claims

set_option linter.unusedVariables false

variable {TKey TValue : Type} [DecidableEq TKey] {Capacity : Nat}

/-- C1: what the code does on the sequence of P3. With `Capacity = C >= 2` and `C + 1` pairwise
distinct keys, after `Put(k1), ..., Put(kC)`, then `Get(k1)`, then `Put(k)` for the last key,
all calls return, `Get(k1)` returns `nullptr` (the key that was looked up is the one evicted)
and `Get(k2)` returns the value stored for `k2` (it was not evicted): `Get` does not change the
order of the list. -/
theorem get_does_not_promote (k1 k2 k : TKey) (v1 v2 v : TValue) (kvs : List (TKey × TValue))
    (hlen : ((k1, v1) :: (k2, v2) :: kvs).length = Capacity)
    (hnd : ((((k1, v1) :: (k2, v2) :: kvs) ++ [(k, v)]).map Prod.fst).Nodup) :
    ∃ c : TLRUCache TKey TValue Capacity,
      run empty (puts ((k1, v1) :: (k2, v2) :: kvs) ++ [Call.get k1, Call.put k v]) = some c ∧
        Get c k1 = some (none, c) ∧ Get c k2 = some (some v2, c) := by
  have hcap : 1 ≤ Capacity := by
    simp only [List.length_cons] at hlen
    omega
  have hnd0 : (((k1, v1) :: (k2, v2) :: kvs).map Prod.fst).Nodup := by
    rw [List.map_append] at hnd
    exact (List.nodup_append.mp hnd).1
  obtain ⟨c0, hrun0, h0, _⟩ := run_puts_distinct hcap ((k1, v1) :: (k2, v2) :: kvs) hnd0
  obtain ⟨c, hrun, h, hent⟩ :=
    run_puts_distinct hcap (((k1, v1) :: (k2, v2) :: kvs) ++ [(k, v)]) hnd
  have hsplit : puts (((k1, v1) :: (k2, v2) :: kvs) ++ [(k, v)]) =
      puts ((k1, v1) :: (k2, v2) :: kvs) ++ [Call.put k v] := by
    simp [puts]
  rw [hsplit, run_append, hrun0] at hrun
  simp only [Option.some_bind] at hrun
  have hd : (((k1, v1) :: (k2, v2) :: kvs) ++ [(k, v)]).length - Capacity = 1 := by
    simp only [List.length_append, List.length_cons, List.length_nil] at hlen ⊢
    omega
  rw [hd] at hent
  refine ⟨c, ?_, ?_, ?_⟩
  · rw [run_append, hrun0]
    simp only [Option.some_bind]
    simp only [run, step_get h0 k1]
    simpa [run] using hrun
  · exact Get_of_dropped h _ hnd 1 hent 0 (by simp) (by decide)
  · exact Get_of_kept h _ 1 hent 1 (by simp) (le_refl 1)

theorem get_does_not_promote_witness :
    ([(1, 10), (2, 20), (3, 30)] : List (Nat × Nat)).length = 3 ∧
    ∃ c : TLRUCache Nat Nat 3,
      run empty (puts [(1, 10), (2, 20), (3, 30)] ++ [Call.get 1, Call.put 4 40]) = some c ∧
        Get c 1 = some (none, c) ∧ Get c 2 = some (some 20, c) :=
  ⟨rfl, get_does_not_promote 1 2 4 10 20 40 [(3, 30)] rfl (by decide)⟩

/-- C2: the code at `Capacity = 2`, `Put(1, 10); Put(2, 20); Put(2, 21)`. The last call updates
a key that is present: its node is moved to the front of the list, the end `DropLRU` removes,
so the list reads key 2, key 1 and the node at the back is that of key 1; one more insertion,
`Put(3, 30)`, evicts key 2 and keeps key 1. -/
theorem put_existing_moves_to_front :
    (run (empty : TLRUCache Nat Nat 2) (puts [(1, 10), (2, 20), (2, 21)])).map keyOrder =
      some [2, 1] ∧
    (run (empty : TLRUCache Nat Nat 2) (puts [(1, 10), (2, 20), (2, 21)])).map
      (fun c => (keyOrder c).getLast?) = some (some 1) ∧
    (run (empty : TLRUCache Nat Nat 2) (puts [(1, 10), (2, 20), (2, 21), (3, 30)])).map
      (fun c => (lookup c 1, lookup c 2, lookup c 3)) = some (some 10, none, some 30) := by
  decide

/-- C3: with `Capacity >= 1`, after each call of any sequence of `Get` and `Put` calls made on
the empty cache (after the first `n` calls, for every `n`), `Map` and `List` hold the same
number of entries, and that number is at most `Capacity`. -/
theorem capacity_bound (hcap : 1 ≤ Capacity) (calls : List (Call TKey TValue)) (n : Nat) :
    ∃ c : TLRUCache TKey TValue Capacity,
      run empty (calls.take n) = some c ∧
        c.Map.length = c.List.length ∧ c.List.length ≤ Capacity := by
  obtain ⟨c, hc⟩ := run_total hcap (calls.take n)
    (empty : TLRUCache TKey TValue Capacity) empty_inv
  have h := run_inv _ _ c empty_inv hc
  exact ⟨c, hc, map_length h, h.bound⟩

theorem capacity_bound_witness :
    1 ≤ 2 ∧ ∃ c : TLRUCache Nat Nat 2,
      run empty ([Call.put 1 10, Call.put 2 20, Call.get 1, Call.put 3 30].take 4) = some c ∧
        c.Map.length = c.List.length ∧ c.List.length ≤ 2 :=
  ⟨by decide, capacity_bound (by decide) _ 4⟩

/-- C4: with `Capacity = C >= 1` and `n` pairwise distinct keys, after `Put(k1, v1), ...,
Put(kn, vn)` on the empty cache (all calls return), `Get(ki)` returns `nullptr` for every
`i <= n - C` and a pointer to `vi` for every `i > n - C` (positions counted from 0 below:
`i + C < n` and `n <= i + C`). -/
theorem eviction_order (hcap : 1 ≤ Capacity) (kvs : List (TKey × TValue))
    (hnd : (kvs.map Prod.fst).Nodup) :
    ∃ c : TLRUCache TKey TValue Capacity,
      run empty (puts kvs) = some c ∧
        ∀ (i : Nat) (hi : i < kvs.length),
          (i + Capacity < kvs.length → Get c kvs[i].1 = some (none, c)) ∧
          (kvs.length ≤ i + Capacity → Get c kvs[i].1 = some (some kvs[i].2, c)) := by
  obtain ⟨c, hrun, h, hent⟩ := run_puts_distinct hcap kvs hnd
  refine ⟨c, hrun, ?_⟩
  intro i hi
  constructor
  · intro hlt
    exact Get_of_dropped h kvs hnd _ hent i hi (by omega)
  · intro hle
    exact Get_of_kept h kvs _ hent i hi (by omega)

theorem eviction_order_witness :
    1 ≤ 3 ∧
    (([(1, 10), (2, 20), (3, 30), (4, 40), (5, 50)] : List (Nat × Nat)).map Prod.fst).Nodup ∧
    ∃ c : TLRUCache Nat Nat 3,
      run empty (puts [(1, 10), (2, 20), (3, 30), (4, 40), (5, 50)]) = some c ∧
        ∀ (i : Nat) (hi : i < [(1, 10), (2, 20), (3, 30), (4, 40), (5, 50)].length),
          (i + 3 < [(1, 10), (2, 20), (3, 30), (4, 40), (5, 50)].length →
            Get c [(1, 10), (2, 20), (3, 30), (4, 40), (5, 50)][i].1 = some (none, c)) ∧
          ([(1, 10), (2, 20), (3, 30), (4, 40), (5, 50)].length ≤ i + 3 →
            Get c [(1, 10), (2, 20), (3, 30), (4, 40), (5, 50)][i].1 =
              some (some [(1, 10), (2, 20), (3, 30), (4, 40), (5, 50)][i].2, c)) :=
  ⟨by decide, by decide, eviction_order (by decide) _ (by decide)⟩

/-- C5: in a reachable cache with `Capacity >= 1` whose size equals `Capacity`, `Put(key, value)`
for a key that is not in the map removes exactly the node at the front of the list and appends
the new node (the front key's pair is erased from the map, the new pair added): afterwards the
front key is absent, `key` maps to `value`, the size is unchanged, and every other key that was
present is still present with the value it had. -/
theorem evict_removes_head (hcap : 1 ≤ Capacity) (c : TLRUCache TKey TValue Capacity)
    (hr : Reachable c) (hfull : c.Map.length = Capacity) (key : TKey) (value : TValue)
    (habs : mapFind c.Map key = none) :
    ∃ (head : TNodeRef × TNode TKey TValue) (rest : List (TNodeRef × TNode TKey TValue))
      (c1 : TLRUCache TKey TValue Capacity),
      c.List = head :: rest ∧ Put c key value = some c1 ∧
      (∃ it : TNodeRef, c1.List = rest ++ [(it, { Key := key, Value := value })] ∧
        c1.Map = mapErase c.Map head.2.Key ++ [(key, it)]) ∧
      c1.Map.length = c.Map.length ∧
      Get c1 head.2.Key = some (none, c1) ∧
      Get c1 key = some (some value, c1) ∧
      ∀ k v, k ≠ head.2.Key → lookup c k = some v → lookup c1 k = some v := by
  have h := reachable_inv hr
  obtain ⟨head, rest, hl⟩ := front_of_full h hcap hfull
  obtain ⟨c1, hp, hmap, hlist, hgone, hframe⟩ :=
    Put_full_frame h key value head rest habs hfull hl
  have h1 := Put_inv h key value c1 hp
  refine ⟨head, rest, c1, hl, hp, ⟨_, hlist, hmap⟩, ?_, hgone,
    Put_get_same h key value c1 hp, ?_⟩
  · rw [map_length h1, map_length h, hlist, hl]
    simp
  · intro k v hne hv
    have hk : k ≠ key := by
      intro e
      rw [e] at hv
      simp [lookup, Get_of_mapFind_none c key habs] at hv
    rw [hframe k hk hne]
    exact hv

theorem evict_removes_head_witness :
    ∃ (head : TNodeRef × TNode Nat Nat) (rest : List (TNodeRef × TNode Nat Nat))
      (c1 : TLRUCache Nat Nat 2),
      ({ Map := [(1, 1), (2, 2)],
         List := [(1, { Key := 1, Value := 10 }), (2, { Key := 2, Value := 20 })] } :
        TLRUCache Nat Nat 2).List = head :: rest ∧
      Put ({ Map := [(1, 1), (2, 2)],
             List := [(1, { Key := 1, Value := 10 }), (2, { Key := 2, Value := 20 })] } :
        TLRUCache Nat Nat 2) 3 30 = some c1 ∧
      (∃ it : TNodeRef, c1.List = rest ++ [(it, { Key := 3, Value := 30 })] ∧
        c1.Map = mapErase [(1, 1), (2, 2)] head.2.Key ++ [(3, it)]) ∧
      c1.Map.length = 2 ∧
      Get c1 head.2.Key = some (none, c1) ∧
      Get c1 3 = some (some 30, c1) ∧
      ∀ k v, k ≠ head.2.Key →
        lookup ({ Map := [(1, 1), (2, 2)],
                  List := [(1, { Key := 1, Value := 10 }), (2, { Key := 2, Value := 20 })] } :
          TLRUCache Nat Nat 2) k = some v → lookup c1 k = some v :=
  evict_removes_head (by decide) _ ⟨[Call.put 1 10, Call.put 2 20], by decide⟩ (by decide)
    3 30 (by decide)

/-- C6: in a reachable cache with `Capacity >= 1`, `Put(key, value)` returns, and `Get(key)`
called right after it returns a non-null pointer to `value`. -/
theorem put_then_get (hcap : 1 ≤ Capacity) (c : TLRUCache TKey TValue Capacity)
    (hr : Reachable c) (key : TKey) (value : TValue) :
    ∃ c1, Put c key value = some c1 ∧ Get c1 key = some (some value, c1) := by
  have h := reachable_inv hr
  obtain ⟨c1, hp⟩ := Put_total h hcap key value
  exact ⟨c1, hp, Put_get_same h key value c1 hp⟩

theorem put_then_get_witness :
    ∃ c1, Put (empty : TLRUCache Nat Nat 10) 10 228 = some c1 ∧
      Get c1 10 = some (some 228, c1) :=
  put_then_get (by decide) _ ⟨[], rfl⟩ 10 228

/-- C7: in a reachable cache (full or not), `Put(key, value)` for a key that is in the map
returns, evicts nothing (the map is untouched, the list has the same keys and the same number
of nodes), makes `Get(key)` return `value`, and every other key reads as before. -/
theorem update_existing (c : TLRUCache TKey TValue Capacity) (hr : Reachable c) (key : TKey)
    (value : TValue) (hpres : mapFind c.Map key ≠ none) :
    ∃ c1, Put c key value = some c1 ∧
      c1.Map = c.Map ∧ c1.List.length = c.List.length ∧ (keyOrder c1).Perm (keyOrder c) ∧
      Get c1 key = some (some value, c1) ∧
      ∀ k, k ≠ key → lookup c1 k = lookup c k := by
  have h := reachable_inv hr
  have hk : key ∈ keyOrder c := by
    by_contra hn
    exact hpres ((mapFind_none_iff h key).mpr hn)
  obtain ⟨c1, hp, hmap, hlen, hperm, hframe⟩ := Put_present_frame h key value hk
  exact ⟨c1, hp, hmap, hlen, hperm, Put_get_same h key value c1 hp, hframe⟩

theorem update_existing_witness :
    (run (empty : TLRUCache Nat Nat 5)
        (puts [(1, 10), (2, 20), (3, 30), (4, 40), (5, 50), (3, 228)]) =
      some { Map := [(1, 1), (2, 2), (3, 3), (4, 4), (5, 5)],
             List := [(3, { Key := 3, Value := 228 }), (1, { Key := 1, Value := 10 }),
                      (2, { Key := 2, Value := 20 }), (4, { Key := 4, Value := 40 }),
                      (5, { Key := 5, Value := 50 })] }) ∧
    (∃ c1,
      Put ({ Map := [(1, 1), (2, 2), (3, 3), (4, 4), (5, 5)],
             List := [(3, { Key := 3, Value := 228 }), (1, { Key := 1, Value := 10 }),
                      (2, { Key := 2, Value := 20 }), (4, { Key := 4, Value := 40 }),
                      (5, { Key := 5, Value := 50 })] } : TLRUCache Nat Nat 5) 3 30 = some c1 ∧
      c1.Map = [(1, 1), (2, 2), (3, 3), (4, 4), (5, 5)] ∧ c1.List.length = 5 ∧
      (keyOrder c1).Perm [3, 1, 2, 4, 5] ∧
      Get c1 3 = some (some 30, c1) ∧
      ∀ k, k ≠ 3 →
        lookup c1 k =
          lookup ({ Map := [(1, 1), (2, 2), (3, 3), (4, 4), (5, 5)],
                    List := [(3, { Key := 3, Value := 228 }), (1, { Key := 1, Value := 10 }),
                             (2, { Key := 2, Value := 20 }), (4, { Key := 4, Value := 40 }),
                             (5, { Key := 5, Value := 50 })] } : TLRUCache Nat Nat 5) k) ∧
    (run (empty : TLRUCache Nat Nat 5)
        (puts [(1, 10), (2, 20), (3, 30), (4, 40), (5, 50), (3, 228), (3, 30)])).map
      (fun c => [lookup c 1, lookup c 2, lookup c 3, lookup c 4, lookup c 5]) =
      some [some 10, some 20, some 30, some 40, some 50] :=
  ⟨by decide,
   update_existing _
     ⟨puts [(1, 10), (2, 20), (3, 30), (4, 40), (5, 50), (3, 228)], by decide⟩ 3 30
     (by decide),
   by decide⟩

/-- C8: in a reachable cache whose size is below `Capacity`, `Put(key, value)` for a key that
is not in the map returns, adds exactly one entry to the list and to the map, makes `Get(key)`
return `value`, and every key that was present is still present with the value it had. -/
theorem insert_below_capacity (c : TLRUCache TKey TValue Capacity) (hr : Reachable c)
    (hroom : c.Map.length < Capacity) (key : TKey) (value : TValue)
    (habs : mapFind c.Map key = none) :
    ∃ c1, Put c key value = some c1 ∧
      c1.List.length = c.List.length + 1 ∧ c1.Map.length = c.Map.length + 1 ∧
      Get c1 key = some (some value, c1) ∧
      ∀ k v, lookup c k = some v → lookup c1 k = some v := by
  have h := reachable_inv hr
  obtain ⟨c1, hp, hmap, hlist, hframe⟩ :=
    Put_room_frame h key value habs (Nat.ne_of_lt hroom)
  refine ⟨c1, hp, ?_, ?_, Put_get_same h key value c1 hp, ?_⟩
  · rw [hlist]
    simp
  · rw [hmap]
    simp
  · intro k v hv
    have hk : k ≠ key := by
      intro e
      rw [e] at hv
      simp [lookup, Get_of_mapFind_none c key habs] at hv
    rw [hframe k hk]
    exact hv

theorem insert_below_capacity_witness :
    ∃ c1,
      Put ({ Map := [(1, 1), (2, 2)],
             List := [(1, { Key := 1, Value := 10 }), (2, { Key := 2, Value := 20 })] } :
        TLRUCache Nat Nat 3) 3 30 = some c1 ∧
      c1.List.length = 2 + 1 ∧ c1.Map.length = 2 + 1 ∧
      Get c1 3 = some (some 30, c1) ∧
      ∀ k v,
        lookup ({ Map := [(1, 1), (2, 2)],
                  List := [(1, { Key := 1, Value := 10 }), (2, { Key := 2, Value := 20 })] } :
          TLRUCache Nat Nat 3) k = some v → lookup c1 k = some v :=
  insert_below_capacity _ ⟨[Call.put 1 10, Call.put 2 20], by decide⟩ (by decide) 3 30
    (by decide)

/-- C9: in a reachable cache, `Get(key)` for a key that is not in the map returns `nullptr`
and the cache after the call, its map and its list, is the cache before the call. -/
theorem get_absent_no_effect (c : TLRUCache TKey TValue Capacity) (hr : Reachable c)
    (key : TKey) (habs : mapFind c.Map key = none) :
    ∃ c1, Get c key = some (none, c1) ∧ c1.List = c.List ∧ c1.Map = c.Map :=
  ⟨c, Get_of_mapFind_none c key habs, rfl, rfl⟩

theorem get_absent_no_effect_witness :
    ∃ c1 : TLRUCache Nat Nat 2,
      Get ({ Map := [(1, 1)], List := [(1, { Key := 1, Value := 10 })] } : TLRUCache Nat Nat 2) 5
        = some (none, c1) ∧
      c1.List = [(1, { Key := 1, Value := 10 })] ∧ c1.Map = [(1, 1)] :=
  get_absent_no_effect _ ⟨[Call.put 1 10], by decide⟩ 5 (by decide)

/-- C10: in a reachable cache, for `n >= 1`, the first `Get(key)` returns a result `r` and a
cache `c1`; `n` consecutive `Get(key)` calls leave the cache `c1` (same list, so the same key
is evicted next), and each of the `n` calls returns `r`. -/
theorem get_idempotent (c : TLRUCache TKey TValue Capacity) (hr : Reachable c) (key : TKey)
    (n : Nat) (hn : 1 ≤ n) :
    ∃ (r : Option TValue) (c1 : TLRUCache TKey TValue Capacity),
      Get c key = some (r, c1) ∧
      run c (List.replicate n (Call.get key)) = some c1 ∧
      ∀ m, m < n → ∃ cm, run c (List.replicate m (Call.get key)) = some cm ∧
        (Get cm key).map Prod.fst = some r := by
  have h := reachable_inv hr
  refine ⟨lookup c key, c, Get_total h key, run_replicate_get h key n, ?_⟩
  intro m _
  exact ⟨c, run_replicate_get h key m, by rw [Get_total h key]; rfl⟩

theorem get_idempotent_witness :
    1 ≤ 3 ∧ ∃ (r : Option Nat) (c1 : TLRUCache Nat Nat 2),
      Get ({ Map := [(1, 1), (2, 2)],
             List := [(1, { Key := 1, Value := 10 }), (2, { Key := 2, Value := 20 })] } :
        TLRUCache Nat Nat 2) 1 = some (r, c1) ∧
      run ({ Map := [(1, 1), (2, 2)],
             List := [(1, { Key := 1, Value := 10 }), (2, { Key := 2, Value := 20 })] } :
        TLRUCache Nat Nat 2) (List.replicate 3 (Call.get 1)) = some c1 ∧
      ∀ m, m < 3 → ∃ cm,
        run ({ Map := [(1, 1), (2, 2)],
               List := [(1, { Key := 1, Value := 10 }), (2, { Key := 2, Value := 20 })] } :
          TLRUCache Nat Nat 2) (List.replicate m (Call.get 1)) = some cm ∧
        (Get cm 1).map Prod.fst = some r :=
  ⟨by decide, get_idempotent _ ⟨[Call.put 1 10, Call.put 2 20], by decide⟩ 1 3 (by decide)⟩

/-- C11: in a reachable cache with `Capacity >= 1`, `Put(key, value)` returns for every key and
value, along one of three paths: the key is in the map (update, nothing removed); the key is
absent and the size differs from `Capacity` (the node is appended to the list as it is); the
key is absent and the size equals `Capacity`, the only path that calls `DropLRU`, and there the
list is not empty, so `List.front()` is defined and `DropLRU` returns. -/
theorem put_never_fails (hcap : 1 ≤ Capacity) (c : TLRUCache TKey TValue Capacity)
    (hr : Reachable c) (key : TKey) (value : TValue) :
    ∃ c1, Put c key value = some c1 ∧
      ((mapFind c.Map key ≠ none ∧ c1.Map = c.Map ∧ c1.List.length = c.List.length) ∨
       (mapFind c.Map key = none ∧ c.Map.length ≠ Capacity ∧
          c1.List = c.List ++ [(freshRef c.List, { Key := key, Value := value })]) ∨
       (mapFind c.Map key = none ∧ c.Map.length = Capacity ∧ c.List ≠ [] ∧
          ∃ c2, DropLRU c = some c2 ∧
            c1.List = c2.List ++ [(freshRef c2.List, { Key := key, Value := value })])) := by
  have h := reachable_inv hr
  by_cases hk : key ∈ keyOrder c
  · obtain ⟨c1, hp, hmap, hlen, _, _⟩ := Put_present_frame h key value hk
    refine ⟨c1, hp, Or.inl ⟨?_, hmap, hlen⟩⟩
    intro hnone
    exact (mapFind_none_iff h key).mp hnone hk
  · have hfind := (mapFind_none_iff h key).mpr hk
    by_cases hfull : c.Map.length = Capacity
    · obtain ⟨n, rest, hl⟩ := front_of_full h hcap hfull
      obtain ⟨c1, hp, _, hlist, _, _⟩ := Put_full_frame h key value n rest hfind hfull hl
      refine ⟨c1, hp, Or.inr (Or.inr ⟨hfind, hfull, ?_, ?_⟩)⟩
      · rw [hl]
        exact List.cons_ne_nil _ _
      · exact ⟨{ Map := mapErase c.Map n.2.Key, List := rest }, by simp [DropLRU, hl], hlist⟩
    · obtain ⟨c1, hp, _, hlist, _⟩ := Put_room_frame h key value hfind hfull
      exact ⟨c1, hp, Or.inr (Or.inl ⟨hfind, hfull, hlist⟩)⟩

theorem put_never_fails_witness :
    ∃ c1,
      Put ({ Map := [(1, 1), (2, 2)],
             List := [(1, { Key := 1, Value := 10 }), (2, { Key := 2, Value := 20 })] } :
        TLRUCache Nat Nat 2) 3 30 = some c1 ∧
      ((mapFind [(1, 1), (2, 2)] 3 ≠ none ∧ c1.Map = [(1, 1), (2, 2)] ∧
          c1.List.length =
            [(1, ({ Key := 1, Value := 10 } : TNode Nat Nat)), (2, { Key := 2, Value := 20 })].length) ∨
       (mapFind [(1, 1), (2, 2)] 3 = none ∧ [(1, 1), (2, 2)].length ≠ 2 ∧
          c1.List = [(1, { Key := 1, Value := 10 }), (2, { Key := 2, Value := 20 })] ++
            [(freshRef [(1, ({ Key := 1, Value := 10 } : TNode Nat Nat)),
                (2, { Key := 2, Value := 20 })], { Key := 3, Value := 30 })]) ∨
       (mapFind [(1, 1), (2, 2)] 3 = none ∧ [(1, 1), (2, 2)].length = 2 ∧
          [(1, ({ Key := 1, Value := 10 } : TNode Nat Nat)), (2, { Key := 2, Value := 20 })] ≠ [] ∧
          ∃ c2,
            DropLRU ({ Map := [(1, 1), (2, 2)],
                       List := [(1, { Key := 1, Value := 10 }), (2, { Key := 2, Value := 20 })] } :
              TLRUCache Nat Nat 2) = some c2 ∧
            c1.List = c2.List ++ [(freshRef c2.List, { Key := 3, Value := 30 })])) :=
  put_never_fails (by decide) _ ⟨[Call.put 1 10, Call.put 2 20], by decide⟩ 3 30

/-- C12 (as the code has it): a cache with `Capacity = 0` is constructed like any other, nothing
rejects it: the default constructor gives the cache with empty map and empty list, a state the
cache can be in, and on it `Get` of every key returns `nullptr` and leaves it as it is. -/
theorem zero_capacity_constructed :
    Reachable (empty : TLRUCache TKey TValue 0) ∧
    (empty : TLRUCache TKey TValue 0).Map = [] ∧ (empty : TLRUCache TKey TValue 0).List = [] ∧
    ∀ key : TKey, Get (empty : TLRUCache TKey TValue 0) key = some (none, empty) :=
  ⟨⟨[], rfl⟩, rfl, rfl, fun key => Get_of_mapFind_none empty key rfl⟩

theorem zero_capacity_not_rejected :
    Reachable (empty : TLRUCache Nat Nat 0) ∧
    Get (empty : TLRUCache Nat Nat 0) 1 = some (none, empty) ∧
    (empty : TLRUCache Nat Nat 0).Map.length = 0 ∧
    DropLRU (empty : TLRUCache Nat Nat 0) = none ∧
    Put (empty : TLRUCache Nat Nat 0) 1 10 = none :=
  ⟨⟨[], rfl⟩, by decide, by decide, by decide, by decide⟩

/-- C14: in every reachable cache the keys of the list nodes are pairwise distinct, the map and
the list hold the same keys, every pair of the map points to a node that carries the pair's key
(I2), every node's key is mapped to that node's address (I3), and `CheckState()` returns true
on the cache and also on the cache `DropLRU` leaves, the states in which it is asserted. -/
theorem index_consistent (c : TLRUCache TKey TValue Capacity) (hr : Reachable c) :
    (keyOrder c).Nodup ∧
    (∀ k : TKey, k ∈ c.Map.map Prod.fst ↔ k ∈ keyOrder c) ∧
    (∀ (k : TKey) (it : TNodeRef), (k, it) ∈ c.Map →
      ∃ node, deref c.List it = some node ∧ node.Key = k) ∧
    (∀ (it : TNodeRef) (node : TNode TKey TValue), (it, node) ∈ c.List →
      mapFind c.Map node.Key = some it) ∧
    CheckState c = true ∧
    ∀ c2, DropLRU c = some c2 → CheckState c2 = true := by
  have h := reachable_inv hr
  refine ⟨h.keys_nodup, fun k => (map_keys_perm h).mem_iff, index_points_to_key h,
    mapFind_of_node h, CheckState_of_inv h, ?_⟩
  intro c2 hd
  exact CheckState_of_inv (DropLRU_inv h c2 hd)

theorem index_consistent_witness :
    (keyOrder ({ Map := [(1, 1), (2, 2)],
                 List := [(2, { Key := 2, Value := 21 }), (1, { Key := 1, Value := 10 })] } :
      TLRUCache Nat Nat 2)).Nodup ∧
    (∀ k : Nat, k ∈ [(1, 1), (2, 2)].map Prod.fst ↔
      k ∈ keyOrder ({ Map := [(1, 1), (2, 2)],
                      List := [(2, { Key := 2, Value := 21 }), (1, { Key := 1, Value := 10 })] } :
        TLRUCache Nat Nat 2)) ∧
    (∀ (k : Nat) (it : TNodeRef), (k, it) ∈ [(1, 1), (2, 2)] →
      ∃ node, deref [(2, ({ Key := 2, Value := 21 } : TNode Nat Nat)),
          (1, { Key := 1, Value := 10 })] it = some node ∧ node.Key = k) ∧
    (∀ (it : TNodeRef) (node : TNode Nat Nat),
      (it, node) ∈ [(2, ({ Key := 2, Value := 21 } : TNode Nat Nat)),
          (1, { Key := 1, Value := 10 })] →
      mapFind [(1, 1), (2, 2)] node.Key = some it) ∧
    CheckState ({ Map := [(1, 1), (2, 2)],
                  List := [(2, { Key := 2, Value := 21 }), (1, { Key := 1, Value := 10 })] } :
      TLRUCache Nat Nat 2) = true ∧
    ∀ c2, DropLRU ({ Map := [(1, 1), (2, 2)],
                     List := [(2, { Key := 2, Value := 21 }), (1, { Key := 1, Value := 10 })] } :
      TLRUCache Nat Nat 2) = some c2 → CheckState c2 = true :=
  index_consistent _ ⟨puts [(1, 10), (2, 20), (2, 21)], by decide⟩

/-- C16: in a reachable cache, `Get(key)` for a key that the map holds returns a pointer to the
value of the node stored for `key`, and the cache after the call has the list (nodes and their
order) and the map of the cache before the call. -/
theorem get_present_pure (c : TLRUCache TKey TValue Capacity) (hr : Reachable c) (key : TKey)
    (it : TNodeRef) (hpres : mapFind c.Map key = some it) :
    ∃ (v : TValue) (c1 : TLRUCache TKey TValue Capacity),
      (it, { Key := key, Value := v }) ∈ c.List ∧
      Get c key = some (some v, c1) ∧ c1.List = c.List ∧ c1.Map = c.Map := by
  have h := reachable_inv hr
  obtain ⟨n, hn, he⟩ := List.mem_map.mp (h.index.mem_iff.mp (mapFind_mem c.Map key it hpres))
  obtain ⟨i, k0, v0⟩ := n
  simp only [indexEntry, Prod.mk.injEq] at he
  obtain ⟨hk, hi⟩ := he
  subst hk
  subst hi
  exact ⟨v0, c, hn, Get_of_node h i { Key := k0, Value := v0 } hn, rfl, rfl⟩

theorem get_present_pure_witness :
    ∃ (v : Nat) (c1 : TLRUCache Nat Nat 2),
      (1, { Key := 1, Value := v }) ∈
        [(1, ({ Key := 1, Value := 10 } : TNode Nat Nat)), (2, { Key := 2, Value := 20 })] ∧
      Get ({ Map := [(1, 1), (2, 2)],
             List := [(1, { Key := 1, Value := 10 }), (2, { Key := 2, Value := 20 })] } :
        TLRUCache Nat Nat 2) 1 = some (some v, c1) ∧
      c1.List = [(1, { Key := 1, Value := 10 }), (2, { Key := 2, Value := 20 })] ∧
      c1.Map = [(1, 1), (2, 2)] :=
  get_present_pure
    ({ Map := [(1, 1), (2, 2)],
       List := [(1, { Key := 1, Value := 10 }), (2, { Key := 2, Value := 20 })] } :
      TLRUCache Nat Nat 2)
    ⟨[Call.put 1 10, Call.put 2 20], by decide⟩ 1 1 (by decide)

/-- C15: in a reachable cache, after a call `Get(k)` or `Put(k, v)` the keys other than `k`
that the list holds both before and after the call stand in the list in the same order, front
to back, as before the call; with `Capacity >= 1` every call returns. -/
theorem others_keep_order (c : TLRUCache TKey TValue Capacity) (hr : Reachable c) :
    (∀ (call : Call TKey TValue) (c1 : TLRUCache TKey TValue Capacity),
      step c call = some c1 → commonOrder c1 c call.key = commonOrder c c1 call.key) ∧
    (1 ≤ Capacity → ∀ call : Call TKey TValue, ∃ c1, step c call = some c1) := by
  have h := reachable_inv hr
  refine ⟨?_, fun hcap call => step_total h hcap call⟩
  intro call c1 hs
  cases call with
  | get key =>
    rw [step_get h key] at hs
    cases hs
    rfl
  | put key value => exact Put_order h key value c1 hs

theorem others_keep_order_witness :
    ((∀ (call : Call Nat Nat) (c1 : TLRUCache Nat Nat 3),
      step ({ Map := [(1, 1), (2, 2), (3, 3)],
              List := [(1, { Key := 1, Value := 10 }), (2, { Key := 2, Value := 20 }),
                       (3, { Key := 3, Value := 30 })] } : TLRUCache Nat Nat 3) call = some c1 →
        commonOrder c1
            ({ Map := [(1, 1), (2, 2), (3, 3)],
               List := [(1, { Key := 1, Value := 10 }), (2, { Key := 2, Value := 20 }),
                        (3, { Key := 3, Value := 30 })] } : TLRUCache Nat Nat 3) call.key =
          commonOrder
            ({ Map := [(1, 1), (2, 2), (3, 3)],
               List := [(1, { Key := 1, Value := 10 }), (2, { Key := 2, Value := 20 }),
                        (3, { Key := 3, Value := 30 })] } : TLRUCache Nat Nat 3) c1 call.key) ∧
     (1 ≤ 3 → ∀ call : Call Nat Nat, ∃ c1,
      step ({ Map := [(1, 1), (2, 2), (3, 3)],
              List := [(1, { Key := 1, Value := 10 }), (2, { Key := 2, Value := 20 }),
                       (3, { Key := 3, Value := 30 })] } : TLRUCache Nat Nat 3) call = some c1)) ∧
    (step ({ Map := [(1, 1), (2, 2), (3, 3)],
             List := [(1, { Key := 1, Value := 10 }), (2, { Key := 2, Value := 20 }),
                      (3, { Key := 3, Value := 30 })] } : TLRUCache Nat Nat 3)
        (Call.put 2 21)).map
      (fun c1 => (keyOrder c1,
        commonOrder c1
          ({ Map := [(1, 1), (2, 2), (3, 3)],
             List := [(1, { Key := 1, Value := 10 }), (2, { Key := 2, Value := 20 }),
                      (3, { Key := 3, Value := 30 })] } : TLRUCache Nat Nat 3) 2)) =
      some ([2, 1, 3], [1, 3]) :=
  ⟨others_keep_order _ ⟨puts [(1, 10), (2, 20), (3, 30)], by decide⟩, by decide⟩

/-- C17: in a reachable cache whose size equals `Capacity`, for a key `k` that the map holds and
a key `k'` that it does not hold, `Put(k, v)` returns and leaves the node of `k` at the front
of the list, `Put(k', v')` then returns, and after the two calls `Get(k)` returns `nullptr`
while every other key that was present before is still present with the value it had. -/
theorem updated_key_evicted_next (c : TLRUCache TKey TValue Capacity) (hr : Reachable c)
    (hfull : c.Map.length = Capacity) (k k' : TKey) (v v' : TValue)
    (hpres : mapFind c.Map k ≠ none) (habs : mapFind c.Map k' = none) :
    ∃ c1 c2, Put c k v = some c1 ∧ (keyOrder c1).head? = some k ∧
      Put c1 k' v' = some c2 ∧ Get c2 k = some (none, c2) ∧
      ∀ x w, x ≠ k → lookup c x = some w → lookup c2 x = some w := by
  have h := reachable_inv hr
  have hk : k ∈ keyOrder c := by
    by_contra hn
    exact hpres ((mapFind_none_iff h k).mpr hn)
  obtain ⟨it, v0, l₁, l₂, hl⟩ := exists_split_of_key c k hk
  have hp1 := Put_of_present h k v v0 it l₁ l₂ hl
  have h1 := inv_of_present h k v v0 it l₁ l₂ hl
  obtain ⟨c1', hp1', _, _, _, hframe1⟩ := Put_present_frame h k v hk
  rw [hp1] at hp1'
  cases hp1'
  obtain ⟨c2, hp2, _, _, hgone, hframe2⟩ :=
    Put_full_frame h1 k' v' (it, { Key := k, Value := v }) (l₁ ++ l₂) habs hfull rfl
  refine ⟨_, c2, hp1, by simp [keyOrder], hp2, hgone, ?_⟩
  intro x w hxk hw
  have hxk' : x ≠ k' := by
    intro e
    rw [e] at hw
    simp [lookup, Get_of_mapFind_none c k' habs] at hw
  rw [hframe2 x hxk' hxk, hframe1 x hxk]
  exact hw

theorem updated_key_evicted_next_witness :
    ∃ c1 c2,
      Put ({ Map := [(1, 1), (2, 2)],
             List := [(1, { Key := 1, Value := 10 }), (2, { Key := 2, Value := 20 })] } :
        TLRUCache Nat Nat 2) 2 21 = some c1 ∧
      (keyOrder c1).head? = some 2 ∧
      Put c1 3 30 = some c2 ∧ Get c2 2 = some (none, c2) ∧
      ∀ x w, x ≠ 2 →
        lookup ({ Map := [(1, 1), (2, 2)],
                  List := [(1, { Key := 1, Value := 10 }), (2, { Key := 2, Value := 20 })] } :
          TLRUCache Nat Nat 2) x = some w → lookup c2 x = some w :=
  updated_key_evicted_next _ ⟨[Call.put 1 10, Call.put 2 20], by decide⟩ (by decide) 2 3 21 30
    (by decide) (by decide)

/-- C18: in a reachable cache with `Capacity >= 1` every call `Get(k)` or `Put(k, v)` returns
and leaves at least as many entries as before (the map and the list hold the same number,
before and after); a `Put` of a key that the map does not hold leaves
`min(size + 1, Capacity)` entries; and a cache that holds `Capacity` entries holds `Capacity`
entries after every later sequence of calls. -/
theorem size_never_decreases (hcap : 1 ≤ Capacity) (c : TLRUCache TKey TValue Capacity)
    (hr : Reachable c) (call : Call TKey TValue) :
    ∃ c1, step c call = some c1 ∧
      c.Map.length = c.List.length ∧ c1.Map.length = c1.List.length ∧
      c.List.length ≤ c1.List.length ∧
      (∀ k v, call = Call.put k v → mapFind c.Map k = none →
        c1.List.length = min (c.List.length + 1) Capacity) ∧
      (c.List.length = Capacity →
        ∀ calls : List (Call TKey TValue), ∃ c2, run c calls = some c2 ∧
          c2.List.length = Capacity) := by
  have h := reachable_inv hr
  obtain ⟨c1, hs⟩ := step_total h hcap call
  have h1 := step_inv h call c1 hs
  refine ⟨c1, hs, map_length h, map_length h1, step_length_le h call c1 hs, ?_, ?_⟩
  · intro k v hcall habs
    subst hcall
    exact (Put_length h k v c1 hs).2 ((mapFind_none_iff h k).mp habs)
  · intro hfull calls
    obtain ⟨c2, hrun⟩ := run_total hcap calls c h
    have hle := run_length_le calls c c2 h hrun
    have hb := (run_inv calls c c2 h hrun).bound
    exact ⟨c2, hrun, by omega⟩

theorem size_never_decreases_witness :
    1 ≤ 2 ∧ ∃ c1,
      step ({ Map := [(1, 1), (2, 2)],
              List := [(1, { Key := 1, Value := 10 }), (2, { Key := 2, Value := 20 })] } :
        TLRUCache Nat Nat 2) (Call.put 3 30) = some c1 ∧
      [(1, 1), (2, 2)].length =
        [(1, ({ Key := 1, Value := 10 } : TNode Nat Nat)), (2, { Key := 2, Value := 20 })].length ∧
      c1.Map.length = c1.List.length ∧
      [(1, ({ Key := 1, Value := 10 } : TNode Nat Nat)), (2, { Key := 2, Value := 20 })].length ≤
        c1.List.length ∧
      (∀ k v, Call.put 3 30 = Call.put k v → mapFind [(1, 1), (2, 2)] k = none →
        c1.List.length =
          min ([(1, ({ Key := 1, Value := 10 } : TNode Nat Nat)),
            (2, { Key := 2, Value := 20 })].length + 1) 2) ∧
      ([(1, ({ Key := 1, Value := 10 } : TNode Nat Nat)), (2, { Key := 2, Value := 20 })].length = 2 →
        ∀ calls : List (Call Nat Nat), ∃ c2,
          run ({ Map := [(1, 1), (2, 2)],
                 List := [(1, { Key := 1, Value := 10 }), (2, { Key := 2, Value := 20 })] } :
            TLRUCache Nat Nat 2) calls = some c2 ∧ c2.List.length = 2) :=
  ⟨by decide,
   size_never_decreases (by decide)
     ({ Map := [(1, 1), (2, 2)],
        List := [(1, { Key := 1, Value := 10 }), (2, { Key := 2, Value := 20 })] } :
       TLRUCache Nat Nat 2)
     ⟨[Call.put 1 10, Call.put 2 20], by decide⟩ (Call.put 3 30)⟩

end Claims

end LRU
